import Mathlib

/-!
Verification of the MCTS engine of the repository (src/mcts_vanilla.py and
src/mcts_modified.py) against its natural-language specification.

The two Python files share the same engine functions except for the rollout
policy; functions that are line-identical in both files (`backpropagate`,
`ucb`, `get_best_action`, `expand_leaf`, `traverse_nodes`, `is_win`) are
embedded once.  The game model (class `Board` of p2_t3.py) is external to
the repository; the engine consumes it only through the interface listed in
the spec, so it is embedded as a structure of abstract operations.

Python mutation of the tree through parent pointers is embedded by explicit
state passing: the tree is a purely functional value, the selection phase
returns the list of actions leading to the reached node, and expansion and
backpropagation are applied along that path.  Python `dict` values (the
`child_nodes` field) are embedded as association lists with insertion-order
semantics, matching Python's key iteration order.  Python float arithmetic
is embedded as real arithmetic (for `ucb`) and rational arithmetic (for the
win-rate comparisons of `get_best_action`); the ambient random source
(`random.choice`) is embedded as an explicit oracle of indices.
-/

/-- The game-model contract consumed by the engine: the interface of the
external `Board` class of p2_t3.py (state transition, legality, termination,
scoring, and the sub-board ownership query used by the modified bot).
States `σ` and actions `α` are opaque to the engine. -/
structure Board (σ α : Type) where
  legal_actions : σ → List α
  next_state : σ → α → σ
  is_ended : σ → Bool
  current_player : σ → ℕ
  points_values : σ → Option (ℕ → ℤ)
  owned_boxes : σ → List (ℕ × ℕ)

/-- The tree node of mcts_node.py as used by both engine files: the list of
untried actions, the child dictionary (association list in insertion
order), and the two counters.  The Python parent pointer is represented
implicitly by the tree structure: upward walks are embedded as downward
passes along an explicit action path. -/
inductive MCTSNode (α : Type) where
  | node (untried_actions : List α) (child_nodes : List (α × MCTSNode α))
      (wins : ℕ) (visits : ℕ)

namespace MCTSNode

variable {α : Type}

def untried_actions : MCTSNode α → List α
  | node u _ _ _ => u

def child_nodes : MCTSNode α → List (α × MCTSNode α)
  | node _ c _ _ => c

def wins : MCTSNode α → ℕ
  | node _ _ w _ => w

def visits : MCTSNode α → ℕ
  | node _ _ _ v => v

@[simp] theorem untried_actions_mk (u : List α) (c : List (α × MCTSNode α)) (w v : ℕ) :
    (node u c w v).untried_actions = u := rfl

@[simp] theorem child_nodes_mk (u : List α) (c : List (α × MCTSNode α)) (w v : ℕ) :
    (node u c w v).child_nodes = c := rfl

@[simp] theorem wins_mk (u : List α) (c : List (α × MCTSNode α)) (w v : ℕ) :
    (node u c w v).wins = w := rfl

@[simp] theorem visits_mk (u : List α) (c : List (α × MCTSNode α)) (w v : ℕ) :
    (node u c w v).visits = v := rfl

end MCTSNode

section Dict

variable {α β : Type} [DecidableEq α]

/-- Lookup in a Python dict embedded as an association list. -/
def dictLookup : List (α × β) → α → Option β
  | [], _ => none
  | (k, v) :: rest, a => if k = a then some v else dictLookup rest a

/-- Assignment `d[k] = v` on a Python dict embedded as an association list:
an existing key is overwritten in place (keeping its position in the key
iteration order), a new key is appended at the end. -/
def dictInsert : List (α × β) → α → β → List (α × β)
  | [], k, v => [(k, v)]
  | (k', v') :: rest, k, v =>
      if k' = k then (k, v) :: rest else (k', v') :: dictInsert rest k v

@[simp] theorem dictLookup_nil (a : α) : dictLookup ([] : List (α × β)) a = none := rfl

theorem dictLookup_dictInsert_self (l : List (α × β)) (k : α) (v : β) :
    dictLookup (dictInsert l k v) k = some v := by
  induction l with
  | nil => simp [dictInsert, dictLookup]
  | cons p rest ih =>
      obtain ⟨k', v'⟩ := p
      by_cases h : k' = k
      · simp [dictInsert, h, dictLookup]
      · simp [dictInsert, h, dictLookup, ih]

theorem dictLookup_dictInsert_ne (l : List (α × β)) (k b : α) (v : β) (h : b ≠ k) :
    dictLookup (dictInsert l k v) b = dictLookup l b := by
  induction l with
  | nil => simp [dictInsert, dictLookup, Ne.symm h]
  | cons p rest ih =>
      obtain ⟨k', v'⟩ := p
      by_cases hk : k' = k
      · subst hk
        simp [dictInsert, dictLookup, Ne.symm h]
      · simp only [dictInsert, if_neg hk, dictLookup]
        by_cases hb : k' = b
        · simp [hb]
        · simp [hb, ih]

theorem dictInsert_dictInsert (l : List (α × β)) (k : α) (v₁ v₂ : β) :
    dictInsert (dictInsert l k v₁) k v₂ = dictInsert l k v₂ := by
  induction l with
  | nil => simp [dictInsert]
  | cons p rest ih =>
      obtain ⟨k', v'⟩ := p
      by_cases h : k' = k
      · simp [dictInsert, h]
      · simp [dictInsert, h, ih]

theorem dictInsert_of_not_mem (l : List (α × β)) (k : α) (v : β)
    (h : k ∉ l.map Prod.fst) : dictInsert l k v = l ++ [(k, v)] := by
  induction l with
  | nil => simp [dictInsert]
  | cons p rest ih =>
      obtain ⟨k', v'⟩ := p
      simp only [List.map_cons, List.mem_cons, not_or] at h
      have hk : k' ≠ k := fun hh => h.1 hh.symm
      simp [dictInsert, hk, ih h.2]

theorem keys_dictInsert_of_mem (l : List (α × β)) (k : α) (v : β)
    (h : k ∈ l.map Prod.fst) : (dictInsert l k v).map Prod.fst = l.map Prod.fst := by
  induction l with
  | nil => simp at h
  | cons p rest ih =>
      obtain ⟨k', v'⟩ := p
      by_cases hk : k' = k
      · simp [dictInsert, hk]
      · simp only [List.map_cons, List.mem_cons] at h
        rcases h with h | h
        · exact absurd h.symm hk
        · simp [dictInsert, hk, ih h]

theorem length_dictInsert_of_mem (l : List (α × β)) (k : α) (v : β)
    (h : k ∈ l.map Prod.fst) : (dictInsert l k v).length = l.length := by
  induction l with
  | nil => simp at h
  | cons p rest ih =>
      obtain ⟨k', v'⟩ := p
      by_cases hk : k' = k
      · simp [dictInsert, hk]
      · simp only [List.map_cons, List.mem_cons] at h
        rcases h with h | h
        · exact absurd h.symm hk
        · simp [dictInsert, hk, ih h]

theorem mem_of_dictLookup_eq_some {l : List (α × β)} {a : α} {b : β}
    (h : dictLookup l a = some b) : (a, b) ∈ l := by
  induction l with
  | nil => simp [dictLookup] at h
  | cons p rest ih =>
      obtain ⟨k', v'⟩ := p
      by_cases hk : k' = a
      · subst hk
        simp [dictLookup] at h
        simp [h]
      · simp only [dictLookup, if_neg hk] at h
        exact List.mem_cons_of_mem _ (ih h)

theorem dictLookup_eq_some_of_mem {l : List (α × β)} {a : α} {b : β}
    (hnd : (l.map Prod.fst).Nodup) (h : (a, b) ∈ l) : dictLookup l a = some b := by
  induction l with
  | nil => simp at h
  | cons p rest ih =>
      obtain ⟨k', v'⟩ := p
      simp only [List.map_cons, List.nodup_cons] at hnd
      rcases List.mem_cons.mp h with h | h
      · rw [Prod.mk.injEq] at h
        obtain ⟨rfl, rfl⟩ := h
        simp [dictLookup]
      · have hk : k' ≠ a := by
          intro hh
          exact hnd.1 (List.mem_map.mpr ⟨(a, b), h, hh.symm⟩)
        simp [dictLookup, hk, ih hnd.2 h]

/-- Members of `dictInsert l k v`, when the keys of `l` are distinct: either
the inserted pair or an old pair whose key differs from `k`. -/
theorem mem_dictInsert {l : List (α × β)} {k : α} {v : β} {p : α × β}
    (hnd : (l.map Prod.fst).Nodup) (h : p ∈ dictInsert l k v) :
    p = (k, v) ∨ (p ∈ l ∧ p.1 ≠ k) := by
  induction l with
  | nil => simp [dictInsert] at h; simp [h]
  | cons q rest ih =>
      obtain ⟨k', v'⟩ := q
      simp only [List.map_cons, List.nodup_cons] at hnd
      by_cases hk : k' = k
      · subst hk
        simp only [dictInsert, if_pos rfl] at h
        rcases List.mem_cons.mp h with h | h
        · exact Or.inl h
        · refine Or.inr ⟨List.mem_cons_of_mem _ h, ?_⟩
          intro hh
          exact hnd.1 (List.mem_map.mpr ⟨p, h, hh⟩)
      · simp only [dictInsert, if_neg hk] at h
        rcases List.mem_cons.mp h with h | h
        · subst h
          exact Or.inr ⟨List.mem_cons_self .., hk⟩
        · rcases ih hnd.2 h with h' | h'
          · exact Or.inl h'
          · exact Or.inr ⟨List.mem_cons_of_mem _ h'.1, h'.2⟩

end Dict

section SizeLemmas

variable {α : Type}

theorem sizeOf_snd_lt_of_mem {l : List (α × MCTSNode α)} {p : α × MCTSNode α}
    (h : p ∈ l) : sizeOf p.2 < sizeOf l := by
  induction l with
  | nil => simp at h
  | cons q rest ih =>
      rcases List.mem_cons.mp h with h | h
      · subst h
        obtain ⟨a, n⟩ := p
        simp only [List.cons.sizeOf_spec, Prod.mk.sizeOf_spec]
        omega
      · have := ih h
        simp only [List.cons.sizeOf_spec]
        omega

theorem sizeOf_child_lt {u : List α} {c : List (α × MCTSNode α)} {w v : ℕ}
    {p : α × MCTSNode α} (h : p ∈ c) :
    sizeOf p.2 < sizeOf (MCTSNode.node u c w v) := by
  have := sizeOf_snd_lt_of_mem h
  simp only [MCTSNode.node.sizeOf_spec]
  omega

end SizeLemmas

/-! ## Engine constants and functions -/

/-- Module-level constant `num_nodes` of both engine files. -/
def num_nodes : ℕ := 1000

/-- Module-level constant `explore_faction` of both engine files. -/
noncomputable def explore_faction : ℝ := 2

/-- Modelled from the spec: the `MCTSNode` constructor of mcts_node.py
(imported by both engine files but not under src/) — "a node's `visits` is
set at creation time to zero", `wins` likewise starts at zero, and the full
legal-action list is copied into the untried-action list (spec sections 3
and 4.1); the child dictionary starts empty. -/
def MCTSNode.create {α : Type} (action_list : List α) : MCTSNode α :=
  MCTSNode.node action_list [] 0 0

/-- Embedding of `ucb` (mcts_vanilla.py lines 122-141, identical in
mcts_modified.py lines 143-162).  The Python function reads the parent
pointer of its node argument; here the parent's visit count is passed
explicitly, `none` standing for the root case `node.parent == None`.
Python float arithmetic is embedded as real arithmetic. -/
noncomputable def ucb (parent_visits : Option ℕ) (wins visits : ℕ)
    (is_opponent : Bool) : ℝ :=
  match parent_visits with
  | none => -1
  | some np =>
      let natural_log : ℝ := Real.log np / Real.log 2.71828
      let exploit : ℝ :=
        if is_opponent then 1 - (wins : ℝ) / (visits : ℝ)
        else (wins : ℝ) / (visits : ℝ)
      let explore : ℝ := explore_faction * Real.sqrt (natural_log / (visits : ℝ))
      exploit + explore

/-- The child-scanning loop inside `traverse_nodes` (mcts_vanilla.py lines
34-46): running maximum of `ucb` over the children in key iteration order,
starting from the sentinel `-1000000000` and no chosen child. -/
noncomputable def best_child_aux {α : Type} (parent_visits : ℕ) (is_opponent : Bool) :
    List (α × MCTSNode α) → ℝ → Option (α × MCTSNode α) → Option (α × MCTSNode α)
  | [], _, chosen => chosen
  | (a, c) :: rest, uct_val, chosen =>
      if ucb (some parent_visits) c.wins c.visits is_opponent > uct_val then
        best_child_aux parent_visits is_opponent rest
          (ucb (some parent_visits) c.wins c.visits is_opponent) (some (a, c))
      else best_child_aux parent_visits is_opponent rest uct_val chosen

noncomputable def best_child {α : Type} (children : List (α × MCTSNode α))
    (parent_visits : ℕ) (is_opponent : Bool) : Option (α × MCTSNode α) :=
  best_child_aux parent_visits is_opponent children (-1000000000) none

theorem best_child_aux_mem {α : Type} {parent_visits : ℕ} {is_opponent : Bool} :
    ∀ (l : List (α × MCTSNode α)) (u : ℝ) (b : Option (α × MCTSNode α))
      (x : α × MCTSNode α),
      best_child_aux parent_visits is_opponent l u b = some x → b = some x ∨ x ∈ l := by
  intro l
  induction l with
  | nil =>
      intro u b x h
      simp only [best_child_aux] at h
      exact Or.inl h
  | cons p rest ih =>
      intro u b x h
      obtain ⟨a, c⟩ := p
      simp only [best_child_aux] at h
      split at h
      · rcases ih _ _ _ h with h' | h'
        · have : (a, c) = x := by injection h'
          exact Or.inr (this ▸ List.mem_cons_self _ _)
        · exact Or.inr (List.mem_cons_of_mem _ h')
      · rcases ih _ _ _ h with h' | h'
        · exact Or.inl h'
        · exact Or.inr (List.mem_cons_of_mem _ h')

theorem best_child_mem {α : Type} {children : List (α × MCTSNode α)} {pv : ℕ}
    {opp : Bool} {x : α × MCTSNode α} (h : best_child children pv opp = some x) :
    x ∈ children := by
  rcases best_child_aux_mem children _ _ x h with h' | h'
  · simp at h'
  · exact h'

theorem sizeOf_lt_of_mem_child_nodes {α : Type} {n : MCTSNode α}
    {p : α × MCTSNode α} (h : p ∈ n.child_nodes) : sizeOf p.2 < sizeOf n := by
  obtain ⟨u, c, w, v⟩ := n
  exact sizeOf_child_lt h

/-- Embedding of `traverse_nodes` (mcts_vanilla.py lines 11-52, identical in
mcts_modified.py lines 10-51).  The Python while loop descends the tree by
reassigning `starter`; here the function returns the list of chosen actions
together with the reached state.  The `none` result embeds the crash Python
would raise when the child scan leaves `chosen_node = None` (never reached
under the tree invariant proved below). -/
noncomputable def traverse_nodes {σ α : Type} [DecidableEq α] (board : Board σ α)
    (starter : MCTSNode α) (state : σ) (bot_identity current_identity : ℕ) :
    Option (List α × σ) :=
  if starter.untried_actions = [] ∧ ¬ board.is_ended state = true then
    match h : best_child starter.child_nodes starter.visits
        (decide (current_identity ≠ bot_identity)) with
    | none => none
    | some (chosen_move, chosen_node) =>
        match traverse_nodes board chosen_node (board.next_state state chosen_move)
            bot_identity (if current_identity = 2 then 1 else 2) with
        | none => none
        | some (path, s) => some (chosen_move :: path, s)
  else some ([], state)
termination_by sizeOf starter
decreasing_by exact sizeOf_lt_of_mem_child_nodes (best_child_mem h)

/-- Embedding of `expand_leaf` (mcts_vanilla.py lines 56-83, identical in
mcts_modified.py lines 53-79).  Returns the updated input node, the state
for the returned node, and the action that was expanded (`none` in the
terminal no-op case, where node and state are returned unchanged; the new
child sits in the updated node's dictionary under that action).  The outer
`none` embeds the IndexError Python raises if `untried_actions` is empty on
a non-terminal state (never reached from `think`). -/
def expand_leaf {σ α : Type} [DecidableEq α] (board : Board σ α)
    (node : MCTSNode α) (state : σ) : Option (MCTSNode α × σ × Option α) :=
  if board.is_ended state = true then some (node, state, none)
  else
    match node.untried_actions with
    | [] => none
    | move_chosen :: rest =>
        let current_game := board.next_state state move_chosen
        let new_node := MCTSNode.create (board.legal_actions current_game)
        some (MCTSNode.node rest (dictInsert node.child_nodes move_chosen new_node)
            node.wins node.visits, current_game, some move_chosen)

/-- The node reached from `n` by following `path` through the child
dictionaries: the tree position Python addresses with a node reference. -/
def nodeAt {α : Type} [DecidableEq α] : List α → MCTSNode α → Option (MCTSNode α)
  | [], n => some n
  | a :: p, n =>
      match dictLookup n.child_nodes a with
      | none => none
      | some child => nodeAt p child

/-- Replace the node sitting at `path` by `f` applied to it; embeds Python's
in-place mutation of a node reached through parent/child references. -/
def updateAt {α : Type} [DecidableEq α] : List α → (MCTSNode α → MCTSNode α) →
    MCTSNode α → MCTSNode α
  | [], f, n => f n
  | a :: p, f, MCTSNode.node u c w v =>
      match dictLookup c a with
      | none => MCTSNode.node u c w v
      | some child => MCTSNode.node u (dictInsert c a (updateAt p f child)) w v

/-- Embedding of `backpropagate` (mcts_vanilla.py lines 108-120, identical
in mcts_modified.py lines 129-141).  The Python function walks from the
leaf to the root through parent pointers, adding 1 to `visits` at every
node on the chain and adding the win indicator to `wins` at every node
except the root; here the same chain is walked top-down along the action
path from the root (`is_root = true` at the start of the path). -/
def backpropagate {α : Type} [DecidableEq α] (won : Bool) :
    List α → MCTSNode α → Bool → MCTSNode α
  | [], MCTSNode.node u c w v, is_root =>
      MCTSNode.node u c (if is_root then w else w + (if won then 1 else 0)) (v + 1)
  | a :: p, MCTSNode.node u c w v, is_root =>
      MCTSNode.node u
        (match dictLookup c a with
         | none => c
         | some child => dictInsert c a (backpropagate won p child false))
        (if is_root then w else w + (if won then 1 else 0)) (v + 1)

/-- `random.choice` embedded: the element of `l` selected by the random
oracle value `i` (arbitrary when `l` is empty, a case the engine never
reaches on a game model whose legal-action list is empty only on ended
states). -/
def choiceD {α : Type} [Inhabited α] (l : List α) (i : ℕ) : α :=
  l.getD (i % l.length) default

/-- Embedding of `rollout` (mcts_vanilla.py lines 86-105): play random
moves until the game ends.  `rand` is the random oracle, `k` the index of
the next draw; `fuel` embeds the game model's guarantee that play reaches a
terminal state in finitely many plies (the Python loop has no bound of its
own and relies on that guarantee). -/
def rollout {σ α : Type} [Inhabited α] (board : Board σ α) (rand : ℕ → ℕ) :
    σ → ℕ → ℕ → σ
  | state, _, 0 => state
  | state, k, fuel + 1 =>
      if board.is_ended state = true then state
      else rollout board rand
          (board.next_state state (choiceD (board.legal_actions state) (rand k)))
          (k + 1) fuel

/-- Embedding of `is_win` (mcts_vanilla.py lines 164-168, identical in
mcts_modified.py lines 185-189); `false` also embeds the AssertionError
raised on a non-terminal state. -/
def is_win {σ α : Type} (board : Board σ α) (state : σ) (identity_of_bot : ℕ) : Bool :=
  match board.points_values state with
  | some outcome => outcome identity_of_bot == 1
  | none => false

/-- Embedding of `heuristic` (mcts_modified.py lines 81-101): scan `moves`
in order; for each, compare the box ownership of `state` with that of the
successor of `state`, and return the first move that turns some box over to
`bot_identity`.  The game model keeps the same box keys in every state, so
the association-list lookup in the successor snapshot embeds Python's
direct dict indexing. -/
def heuristic {σ α : Type} (board : Board σ α) (state : σ) :
    List α → ℕ → Option α
  | [], _ => none
  | instances :: rest, bot_identity =>
      let next_s := board.next_state state instances
      let avail_prev := board.owned_boxes state
      let avail_next := board.owned_boxes next_s
      if avail_prev.any (fun mini =>
          (bot_identity == 1 && !(some mini.2 == dictLookup avail_next mini.1) &&
            (dictLookup avail_next mini.1 == some 1)) ||
          (bot_identity == 2 && !(some mini.2 == dictLookup avail_next mini.1) &&
            (dictLookup avail_next mini.1 == some 2))) then
        some instances
      else heuristic board state rest bot_identity

/-- Embedding of `rollout` of mcts_modified.py (lines 103-126).  Note that
the source passes its `state` argument (the state the rollout started from,
held fixed) to `heuristic`, while the candidate moves are the legal actions
of the evolving `current_game`. -/
def rollout_modified {σ α : Type} [Inhabited α] (board : Board σ α) (state : σ)
    (bot_identity : ℕ) (rand : ℕ → ℕ) : σ → ℕ → ℕ → σ
  | current_game, _, 0 => current_game
  | current_game, k, fuel + 1 =>
      if board.is_ended current_game = true then current_game
      else
        let move_chosen :=
          match heuristic board state (board.legal_actions current_game) bot_identity with
          | some m => m
          | none => choiceD (board.legal_actions current_game) (rand k)
        rollout_modified board state bot_identity rand
          (board.next_state current_game move_chosen) (k + 1) fuel

/-- The full modified rollout as called from `think` of mcts_modified.py
(line 214): the evolving game starts at `state`, which is also the snapshot
the source hands to `heuristic` on every step. -/
def rollout_mod {σ α : Type} [Inhabited α] (board : Board σ α) (state : σ)
    (bot_identity : ℕ) (rand : ℕ → ℕ) (fuel : ℕ) : σ :=
  rollout_modified board state bot_identity rand state 0 fuel

/-- The scanning loop of `get_best_action` (mcts_vanilla.py lines 152-162,
identical in mcts_modified.py lines 173-183): `val` is the best win rate
seen so far (a rational, embedding the Python float, starting at the
sentinel `-1000000000`), `visit` the best visit count so far (an integer,
starting at `-1`). -/
def get_best_action_aux {α : Type} :
    List (α × MCTSNode α) → ℚ → ℤ → Option α → Option α
  | [], _, _, chosen_move => chosen_move
  | (instances, c) :: rest, val, visit, chosen_move =>
      if (c.wins : ℚ) / (c.visits : ℚ) > val then
        if (c.visits : ℤ) > visit then
          get_best_action_aux rest ((c.wins : ℚ) / (c.visits : ℚ)) (c.visits : ℤ)
            (some instances)
        else get_best_action_aux rest val visit chosen_move
      else get_best_action_aux rest val visit chosen_move

/-- Embedding of `get_best_action` (mcts_vanilla.py lines 143-162, identical
in mcts_modified.py lines 164-183). -/
def get_best_action {α : Type} (root_node : MCTSNode α) : Option α :=
  get_best_action_aux root_node.child_nodes (-1000000000) (-1) none

/-- One iteration of the `think` loop (mcts_vanilla.py lines 183-189):
select, expand, roll out, backpropagate.  Python's mutation through parent
pointers is embedded by applying the expansion at the selected path and
then bumping the counters along that path extended by the newly expanded
action — exactly the leaf-to-root chain the source `backpropagate` walks,
since the node returned by `expand_leaf` is the new child (or the reached
node itself when its state is terminal). -/
noncomputable def mcts_iteration {σ α : Type} [DecidableEq α] [Inhabited α]
    (board : Board σ α) (root : MCTSNode α) (current_state : σ)
    (bot_identity : ℕ) (rand : ℕ → ℕ) (fuel : ℕ) : Option (MCTSNode α) :=
  match traverse_nodes board root current_state bot_identity bot_identity with
  | none => none
  | some (path, s1) =>
      match nodeAt path root with
      | none => none
      | some leaf =>
          match expand_leaf board leaf s1 with
          | none => none
          | some (leaf', s2, act) =>
              let terminal_state := rollout board rand s2 0 fuel
              let won := is_win board terminal_state bot_identity
              some (backpropagate won (path ++ act.toList)
                  (updateAt path (fun _ => leaf') root) true)

/-- The `for _ in range(num_nodes)` loop of `think` (mcts_vanilla.py lines
183-189), run for `budget` iterations from a fresh root over the original
input state, iteration `k` drawing from its own random oracle `rand k`. -/
noncomputable def mcts_loop {σ α : Type} [DecidableEq α] [Inhabited α]
    (board : Board σ α) (current_state : σ) (bot_identity : ℕ)
    (rand : ℕ → ℕ → ℕ) (fuel : ℕ) : ℕ → Option (MCTSNode α)
  | 0 => some (MCTSNode.create (board.legal_actions current_state))
  | k + 1 =>
      match mcts_loop board current_state bot_identity rand fuel k with
      | none => none
      | some r => mcts_iteration board r current_state bot_identity (rand k) fuel

/-- Embedding of `think` (mcts_vanilla.py lines 170-198): run the loop for
`num_nodes` iterations, then read the best action off the root. -/
noncomputable def think {σ α : Type} [DecidableEq α] [Inhabited α]
    (board : Board σ α) (current_state : σ) (rand : ℕ → ℕ → ℕ) (fuel : ℕ) :
    Option (Option α) :=
  (mcts_loop board current_state (board.current_player current_state) rand fuel
      num_nodes).map get_best_action

/-! ## The tree invariant -/

/-- The game-model convention the spec states for the engine: the
legal-action list is empty exactly on ended states (spec section 6), with
distinct entries. -/
def lawfulBoard {σ α : Type} (board : Board σ α) : Prop :=
  (∀ s, board.legal_actions s = [] ↔ board.is_ended s = true) ∧
  ∀ s, (board.legal_actions s).Nodup

/-- The tree invariant maintained between iterations of the `think` loop:
at every node, the child keys followed by the untried actions are exactly
the legal actions captured at node creation (in order); `wins ≤ visits`;
the node has been visited at least as often as it has children (each child
was created by an iteration that backpropagated through this node); and
every child subtree satisfies the invariant and has been visited at least
once. -/
def WF {σ α : Type} [DecidableEq α] (board : Board σ α) : σ → MCTSNode α → Prop
  | s, MCTSNode.node u c w v =>
      c.map Prod.fst ++ u = board.legal_actions s ∧
      w ≤ v ∧ c.length ≤ v ∧
      ∀ p ∈ c, 1 ≤ p.2.visits ∧ WF board (board.next_state s p.1) p.2
termination_by s n => sizeOf n
decreasing_by exact sizeOf_child_lt (by assumption)

theorem WF.wins_le_visits {σ α : Type} [DecidableEq α] {board : Board σ α}
    {s : σ} {n : MCTSNode α} (h : WF board s n) : n.wins ≤ n.visits := by
  obtain ⟨u, c, w, v⟩ := n
  simp only [WF] at h
  exact h.2.1

theorem WF.child {σ α : Type} [DecidableEq α] {board : Board σ α}
    {s : σ} {n : MCTSNode α} (h : WF board s n) {p : α × MCTSNode α}
    (hp : p ∈ n.child_nodes) :
    1 ≤ p.2.visits ∧ WF board (board.next_state s p.1) p.2 := by
  obtain ⟨u, c, w, v⟩ := n
  simp only [WF] at h
  exact h.2.2.2 p hp

theorem WF_create {σ α : Type} [DecidableEq α] (board : Board σ α) (s : σ) :
    WF board s (MCTSNode.create (board.legal_actions s)) := by
  simp [WF, MCTSNode.create]

theorem ucb_nonneg (np : ℕ) (opp : Bool) {w v : ℕ} (hv : 1 ≤ v) (hwv : w ≤ v) :
    (0 : ℝ) ≤ ucb (some np) w v opp := by
  have hv0 : (0 : ℝ) < (v : ℝ) := by exact_mod_cast hv
  have hdiv0 : (0 : ℝ) ≤ (w : ℝ) / (v : ℝ) :=
    div_nonneg (by positivity) hv0.le
  have hdiv1 : (w : ℝ) / (v : ℝ) ≤ 1 := by
    rw [div_le_one hv0]
    exact_mod_cast hwv
  have hexploit : (0 : ℝ) ≤
      (if opp then 1 - (w : ℝ) / (v : ℝ) else (w : ℝ) / (v : ℝ)) := by
    cases opp
    · simpa using hdiv0
    · simpa using sub_nonneg.mpr hdiv1
  have hexplore : (0 : ℝ) ≤ explore_faction *
      Real.sqrt ((Real.log np / Real.log 2.71828) / (v : ℝ)) := by
    apply mul_nonneg
    · rw [explore_faction]
      norm_num
    · exact Real.sqrt_nonneg _
  simp only [ucb]
  exact add_nonneg hexploit hexplore

theorem best_child_aux_isSome {α : Type} {pv : ℕ} {opp : Bool} :
    ∀ (l : List (α × MCTSNode α)) (u : ℝ) (b : Option (α × MCTSNode α)),
      b.isSome → (best_child_aux pv opp l u b).isSome := by
  intro l
  induction l with
  | nil =>
      intro u b h
      simpa [best_child_aux] using h
  | cons p rest ih =>
      intro u b h
      obtain ⟨a, c⟩ := p
      simp only [best_child_aux]
      split
      · exact ih _ _ rfl
      · exact ih _ _ h

theorem best_child_isSome {α : Type} (pv : ℕ) (opp : Bool)
    {l : List (α × MCTSNode α)} (hne : l ≠ [])
    (hok : ∀ p ∈ l, p.2.wins ≤ p.2.visits ∧ 1 ≤ p.2.visits) :
    (best_child l pv opp).isSome := by
  obtain ⟨⟨a, c⟩, rest, rfl⟩ := List.exists_cons_of_ne_nil hne
  have h0 := hok (a, c) (List.mem_cons_self _ _)
  have hpos : ucb (some pv) c.wins c.visits opp > (-1000000000 : ℝ) := by
    have := ucb_nonneg pv opp h0.2 h0.1
    linarith
  rw [best_child]
  simp only [best_child_aux, if_pos hpos]
  exact best_child_aux_isSome _ _ _ rfl

/-- The heart of the engine verification: from any well-formed subtree, the
selection phase succeeds and returns a valid path; expanding at the reached
node and bumping the counters along the path (extended by the expanded
action) preserves the invariant and adds exactly one visit to the subtree
root. -/
theorem mcts_descend {σ α : Type} [DecidableEq α] (board : Board σ α)
    (hg : lawfulBoard board) :
    ∀ (N : ℕ) (n : MCTSNode α) (s : σ) (bot cur : ℕ), sizeOf n ≤ N →
      WF board s n →
      ∃ path s1 leaf leaf' s2 act,
        traverse_nodes board n s bot cur = some (path, s1) ∧
        nodeAt path n = some leaf ∧
        expand_leaf board leaf s1 = some (leaf', s2, act) ∧
        ∀ (won : Bool) (is_root : Bool),
          WF board s (backpropagate won (path ++ act.toList)
            (updateAt path (fun _ => leaf') n) is_root) ∧
          (backpropagate won (path ++ act.toList)
            (updateAt path (fun _ => leaf') n) is_root).visits = n.visits + 1 := by
  intro N
  induction N with
  | zero =>
      intro n s bot cur hsize hwf
      exfalso
      obtain ⟨u, c, w, v⟩ := n
      simp only [MCTSNode.node.sizeOf_spec] at hsize
      omega
  | succ N ih =>
      intro n s bot cur hsize hwf
      obtain ⟨u, c, w, v⟩ := n
      simp only [WF] at hwf
      obtain ⟨hpart, hwv, hcl, hch⟩ := hwf
      by_cases hcond : u = [] ∧ ¬ board.is_ended s = true
      · -- the selection loop runs one step and recurses into the best child
        obtain ⟨hu, hne⟩ := hcond
        subst hu
        simp only [List.append_nil] at hpart
        have hlegal : board.legal_actions s ≠ [] := fun hl => hne ((hg.1 s).mp hl)
        have hcne : c ≠ [] := by
          intro hc
          apply hlegal
          rw [← hpart, hc]
          rfl
        have keysNodup : (c.map Prod.fst).Nodup := hpart ▸ hg.2 s
        have hok : ∀ p ∈ c, p.2.wins ≤ p.2.visits ∧ 1 ≤ p.2.visits := by
          intro p hp
          exact ⟨(hch p hp).2.wins_le_visits, (hch p hp).1⟩
        obtain ⟨⟨a, ch⟩, hbceq⟩ := Option.isSome_iff_exists.mp
          (best_child_isSome v (decide (cur ≠ bot)) hcne hok)
        have hmem : (a, ch) ∈ c := best_child_mem hbceq
        have hchs := hch (a, ch) hmem
        have hach : 1 ≤ ch.visits := hchs.1
        have hwfch : WF board (board.next_state s a) ch := hchs.2
        have hsz : sizeOf ch ≤ N := by
          have h1 : sizeOf ch < sizeOf (MCTSNode.node ([] : List α) c w v) :=
            sizeOf_child_lt hmem
          omega
        obtain ⟨p, s1, leaf, leaf', s2, act, htrav', hnode', hexp', hback'⟩ :=
          ih ch (board.next_state s a) bot (if cur = 2 then 1 else 2) hsz hwfch
        have hluk : dictLookup c a = some ch := dictLookup_eq_some_of_mem keysNodup hmem
        have hamem : a ∈ c.map Prod.fst := List.mem_map.mpr ⟨(a, ch), hmem, rfl⟩
        have htrav : traverse_nodes board (MCTSNode.node [] c w v) s bot cur
            = some (a :: p, s1) := by
          rw [traverse_nodes,
            if_pos (⟨rfl, hne⟩ : (MCTSNode.node [] c w v).untried_actions = []
              ∧ ¬ board.is_ended s = true)]
          split
          · rename_i heq
            simp only [MCTSNode.child_nodes_mk, MCTSNode.visits_mk] at heq
            rw [hbceq] at heq
            simp at heq
          · rename_i cm cn heq
            simp only [MCTSNode.child_nodes_mk, MCTSNode.visits_mk] at heq
            rw [hbceq] at heq
            have hpair : (a, ch) = (cm, cn) := Option.some.inj heq
            rw [Prod.mk.injEq] at hpair
            obtain ⟨rfl, rfl⟩ := hpair
            rw [htrav']
        have hnode : nodeAt (a :: p) (MCTSNode.node [] c w v) = some leaf := by
          simp only [nodeAt, MCTSNode.child_nodes_mk, hluk]
          exact hnode'
        refine ⟨a :: p, s1, leaf, leaf', s2, act, htrav, hnode, hexp', ?_⟩
        intro won is_root
        have hupd : updateAt (a :: p) (fun _ => leaf') (MCTSNode.node [] c w v)
            = MCTSNode.node []
                (dictInsert c a (updateAt p (fun _ => leaf') ch)) w v := by
          simp only [updateAt, hluk]
        have hbp : backpropagate won ((a :: p) ++ act.toList)
            (MCTSNode.node []
              (dictInsert c a (updateAt p (fun _ => leaf') ch)) w v) is_root
            = MCTSNode.node []
                (dictInsert c a (backpropagate won (p ++ act.toList)
                  (updateAt p (fun _ => leaf') ch) false))
                (if is_root then w else w + (if won then 1 else 0)) (v + 1) := by
          show backpropagate won (a :: (p ++ act.toList)) _ is_root = _
          simp only [backpropagate, dictLookup_dictInsert_self,
            dictInsert_dictInsert]
        have hYwf : WF board (board.next_state s a)
            (backpropagate won (p ++ act.toList)
              (updateAt p (fun _ => leaf') ch) false) := (hback' won false).1
        have hYv : (backpropagate won (p ++ act.toList)
            (updateAt p (fun _ => leaf') ch) false).visits = ch.visits + 1 :=
          (hback' won false).2
        rw [hupd, hbp]
        constructor
        · simp only [WF]
          refine ⟨?_, ?_, ?_, ?_⟩
          · rw [keys_dictInsert_of_mem _ _ _ hamem, List.append_nil]
            exact hpart
          · cases is_root <;> cases won <;> simp <;> omega
          · rw [length_dictInsert_of_mem _ _ _ hamem]
            omega
          · intro q hq
            rcases mem_dictInsert keysNodup hq with hq' | hq'
            · subst hq'
              refine ⟨?_, hYwf⟩
              rw [hYv]
              omega
            · exact hch q hq'.1
        · simp
      · -- the selection loop stops at this node: expansion happens here
        have htrav : traverse_nodes board (MCTSNode.node u c w v) s bot cur
            = some ([], s) := by
          rw [traverse_nodes]
          simp only [MCTSNode.untried_actions_mk]
          rw [if_neg hcond]
        by_cases hend : board.is_ended s = true
        · -- terminal state: expansion is a no-op, only the counters move
          have hexp : expand_leaf board (MCTSNode.node u c w v) s
              = some (MCTSNode.node u c w v, s, none) := by
            simp [expand_leaf, hend]
          refine ⟨[], s, MCTSNode.node u c w v, MCTSNode.node u c w v, s, none,
            htrav, rfl, hexp, ?_⟩
          intro won is_root
          have hbp : backpropagate won (([] : List α) ++ Option.toList none)
              (updateAt [] (fun _ => MCTSNode.node u c w v)
                (MCTSNode.node u c w v)) is_root
              = MCTSNode.node u c
                  (if is_root then w else w + (if won then 1 else 0)) (v + 1) := by
            rfl
          rw [hbp]
          constructor
          · simp only [WF]
            refine ⟨hpart, ?_, ?_, hch⟩
            · cases is_root <;> cases won <;> simp <;> omega
            · omega
          · simp
        · -- non-terminal state with untried actions: pop the first one
          have hune : u ≠ [] := by
            intro huu
            exact hcond ⟨huu, hend⟩
          obtain ⟨m, rest, rfl⟩ := List.exists_cons_of_ne_nil hune
          have hexp : expand_leaf board (MCTSNode.node (m :: rest) c w v) s
              = some (MCTSNode.node rest
                  (dictInsert c m
                    (MCTSNode.create (board.legal_actions (board.next_state s m))))
                  w v,
                board.next_state s m, some m) := by
            simp [expand_leaf, hend]
          have hmnotin : m ∉ c.map Prod.fst := by
            have hnd : (c.map Prod.fst ++ m :: rest).Nodup := hpart ▸ hg.2 s
            rw [List.nodup_append] at hnd
            intro hmk
            exact hnd.2.2 hmk (List.mem_cons_self _ _)
          refine ⟨[], s, MCTSNode.node (m :: rest) c w v, _, board.next_state s m,
            some m, htrav, rfl, hexp, ?_⟩
          intro won is_root
          have hins : dictInsert c m
              (MCTSNode.create (board.legal_actions (board.next_state s m)))
              = c ++ [(m, MCTSNode.create
                  (board.legal_actions (board.next_state s m)))] :=
            dictInsert_of_not_mem _ _ _ hmnotin
          have hbp : backpropagate won (([] : List α) ++ Option.toList (some m))
              (updateAt [] (fun _ => MCTSNode.node rest
                  (dictInsert c m
                    (MCTSNode.create (board.legal_actions (board.next_state s m))))
                  w v)
                (MCTSNode.node (m :: rest) c w v)) is_root
              = MCTSNode.node rest
                  (dictInsert c m
                    (MCTSNode.node (board.legal_actions (board.next_state s m)) []
                      (if won then 1 else 0) 1))
                  (if is_root then w else w + (if won then 1 else 0)) (v + 1) := by
            show backpropagate won [m] _ is_root = _
            simp only [updateAt, backpropagate, dictLookup_dictInsert_self,
              dictInsert_dictInsert, MCTSNode.create]
            simp
          rw [hbp]
          constructor
          · simp only [WF]
            have hins' : dictInsert c m
                (MCTSNode.node (board.legal_actions (board.next_state s m)) []
                  (if won then 1 else 0) 1)
                = c ++ [(m, MCTSNode.node
                    (board.legal_actions (board.next_state s m)) []
                    (if won then 1 else 0) 1)] :=
              dictInsert_of_not_mem _ _ _ hmnotin
            rw [hins']
            refine ⟨?_, ?_, ?_, ?_⟩
            · simp only [List.map_append, List.map_cons, List.map_nil]
              rw [List.append_assoc]
              simpa using hpart
            · cases is_root <;> cases won <;> simp <;> omega
            · simp only [List.length_append, List.length_cons, List.length_nil]
              omega
            · intro q hq
              rcases List.mem_append.mp hq with hq' | hq'
              · exact hch q hq'
              · have hq'' : q = (m, MCTSNode.node
                    (board.legal_actions (board.next_state s m)) []
                    (if won then 1 else 0) 1) := by simpa using hq'
                subst hq''
                refine ⟨le_rfl, ?_⟩
                simp only [WF]
                refine ⟨by simp, ?_, by simp, by simp⟩
                cases won <;> simp
          · simp

/-- One full iteration of the `think` loop succeeds on a well-formed tree,
preserves the invariant, and adds exactly one visit to the root. -/
theorem mcts_iteration_spec {σ α : Type} [DecidableEq α] [Inhabited α]
    (board : Board σ α) (hg : lawfulBoard board) (root : MCTSNode α) (s : σ)
    (bot : ℕ) (rand : ℕ → ℕ) (fuel : ℕ) (hwf : WF board s root) :
    ∃ root', mcts_iteration board root s bot rand fuel = some root' ∧
      WF board s root' ∧ root'.visits = root.visits + 1 := by
  obtain ⟨path, s1, leaf, leaf', s2, act, htrav, hnode, hexp, hback⟩ :=
    mcts_descend board hg (sizeOf root) root s bot bot le_rfl hwf
  refine ⟨backpropagate (is_win board (rollout board rand s2 0 fuel) bot)
      (path ++ act.toList) (updateAt path (fun _ => leaf') root) true, ?_, ?_, ?_⟩
  · simp only [mcts_iteration, htrav, hnode, hexp]
  · exact (hback _ true).1
  · exact (hback _ true).2

/-- After any number of completed iterations the loop has produced a
well-formed tree whose root has exactly one visit per iteration. -/
theorem mcts_loop_spec {σ α : Type} [DecidableEq α] [Inhabited α]
    (board : Board σ α) (hg : lawfulBoard board) (s : σ) (bot : ℕ)
    (rand : ℕ → ℕ → ℕ) (fuel : ℕ) :
    ∀ k, ∃ r, mcts_loop board s bot rand fuel k = some r ∧
      WF board s r ∧ r.visits = k := by
  intro k
  induction k with
  | zero => exact ⟨MCTSNode.create (board.legal_actions s), rfl, WF_create board s, rfl⟩
  | succ k ih =>
      obtain ⟨r, hr, hwf, hv⟩ := ih
      obtain ⟨r', hr', hwf', hv'⟩ := mcts_iteration_spec board hg r s bot (rand k) fuel hwf
      refine ⟨r', ?_, hwf', by omega⟩
      simp only [mcts_loop, hr, hr']

/-- `P` holds at every node of the tree, each node paired with the state it
stands for (the root's state acted on by the node's action path). -/
def AllNodesS {σ α : Type} (board : Board σ α) (P : σ → MCTSNode α → Prop) :
    σ → MCTSNode α → Prop
  | s, MCTSNode.node u c w v =>
      P s (MCTSNode.node u c w v) ∧
      ∀ p ∈ c, AllNodesS board P (board.next_state s p.1) p.2
termination_by s n => sizeOf n
decreasing_by exact sizeOf_child_lt (by assumption)

theorem WF_implies_AllNodesS {σ α : Type} [DecidableEq α] {board : Board σ α}
    {P : σ → MCTSNode α → Prop}
    (hP : ∀ s n, WF board s n → P s n) :
    ∀ (N : ℕ) (n : MCTSNode α), sizeOf n ≤ N → ∀ s, WF board s n →
      AllNodesS board P s n := by
  intro N
  induction N with
  | zero =>
      intro n hsize
      exfalso
      obtain ⟨u, c, w, v⟩ := n
      simp only [MCTSNode.node.sizeOf_spec] at hsize
      omega
  | succ N ih =>
      intro n hsize s hwf
      have hPn := hP s n hwf
      obtain ⟨u, c, w, v⟩ := n
      simp only [AllNodesS]
      refine ⟨hPn, ?_⟩
      intro p hp
      have hsz : sizeOf p.2 ≤ N := by
        have h1 : sizeOf p.2 < sizeOf (MCTSNode.node u c w v) := sizeOf_child_lt hp
        omega
      simp only [WF] at hwf
      exact ih p.2 hsz _ (hwf.2.2.2 p hp).2

/-! ## A concrete finite game model used as test fixture -/

/-- States of a small two-ply test game: `s0 → s1` by action 0, then
`s1 → s2b` by action 1 or `s1 → s2c` by action 2; `tb`/`tc` are the (dead)
results of playing actions 1/2 directly from `s0`. -/
inductive TState where
  | s0 | s1 | s2b | s2c | tb | tc
deriving DecidableEq, Fintype

/-- A concrete game model over one sub-board box (box id 0).  Action 1
taken from `s1` wins the box for player 1 (`s2b`); action 2 taken from the
stale state `s0` also appears to win the box (`tc`), while action 2 taken
from `s1` does not (`s2c`).  This separates "successor of the current
state" from "successor of the rollout's initial state". -/
def heurGame : Board TState ℕ where
  legal_actions s :=
    match s with
    | .s0 => [0]
    | .s1 => [1, 2]
    | _ => []
  next_state s m :=
    match s, m with
    | .s0, 0 => .s1
    | .s0, 1 => .tb
    | .s0, 2 => .tc
    | .s1, 1 => .s2b
    | .s1, 2 => .s2c
    | t, _ => t
  is_ended s :=
    match s with
    | .s0 => false
    | .s1 => false
    | _ => true
  current_player _ := 1
  points_values s :=
    match s with
    | .s2b => some (fun i => if i = 1 then 1 else 0)
    | .s2c => some (fun i => if i = 2 then 1 else 0)
    | _ => none
  owned_boxes s :=
    match s with
    | .s2b => [(0, 1)]
    | .tc => [(0, 1)]
    | _ => [(0, 0)]

theorem lawful_heurGame : lawfulBoard heurGame := ⟨by decide, by decide⟩

/-- C2: the claim says each rollout step's heuristic compares box ownership
across successors of the current (this-step) state.  The code instead hands
`heuristic` the rollout's initial state on every step (mcts_modified.py line
120 passes `state`, not `current_game`), while taking the candidate moves
from the current state.  Evaluated at the failing input: rolling out
`heurGame` from `s0`, the second step scans moves [1, 2]; against the
current state `s1` the first qualifying move is 1 (it yields `s2b`, winning
box 0), but the code evaluates successors of the stale `s0` and picks 2,
ending the rollout in `s2c` for every random oracle. -/
theorem rollout_heuristic_uses_stale_state :
    rollout_mod heurGame TState.s0 1 (fun _ => 0) 5 = TState.s2c ∧
    heuristic heurGame TState.s0 [1, 2] 1 = some 2 ∧
    heuristic heurGame TState.s1 [1, 2] 1 = some 1 ∧
    heurGame.next_state TState.s1 1 = TState.s2b ∧
    heurGame.next_state TState.s1 2 = TState.s2c := by
  refine ⟨?_, ?_, ?_, rfl, rfl⟩ <;> rfl

/-- C3 counterexample: at parent visits 2, own visits 1, wins 0, non-opponent,
the `ucb` value differs from the claimed formula with the exact natural
logarithm: the code divides `log(Np)` by `log(2.71828)`, and `2.71828` is
strictly below `e`, so the quotient strictly exceeds `ln(Np)` for `Np = 2`. -/
theorem ucb_not_exact_natural_log :
    ucb (some 2) 0 1 false ≠
      (0 : ℝ) / 1 + explore_faction * Real.sqrt (Real.log 2 / 1) := by
  have hlog2 : 0 < Real.log 2 := Real.log_pos (by norm_num)
  have hb0 : (0 : ℝ) < Real.log 2.71828 := Real.log_pos (by norm_num)
  have hb1 : Real.log 2.71828 < 1 := by
    rw [Real.log_lt_iff_lt_exp (by norm_num)]
    calc (2.71828 : ℝ) < 2.7182818283 := by norm_num
      _ < Real.exp 1 := Real.exp_one_gt_d9
  have hstep : Real.log 2 < Real.log 2 / Real.log 2.71828 := by
    rw [lt_div_iff hb0]
    exact mul_lt_of_lt_one_right hlog2 hb1
  have hsq : Real.sqrt (Real.log 2) < Real.sqrt (Real.log 2 / Real.log 2.71828) :=
    Real.sqrt_lt_sqrt hlog2.le hstep
  have h2 : (2 : ℝ) * Real.sqrt (Real.log 2)
      < 2 * Real.sqrt (Real.log 2 / Real.log 2.71828) :=
    mul_lt_mul_of_pos_left hsq (by norm_num)
  have hmain : (0 : ℝ) / 1 + explore_faction * Real.sqrt (Real.log 2 / 1)
      < ucb (some 2) 0 1 false := by
    simp only [ucb, explore_faction]
    norm_num
    linarith
  exact (ne_of_lt hmain).symm

/-- C3 amended: for every non-root node with parent visits `Np ≥ 1`, own
visits `N ≥ 1` and wins `W`, `ucb` returns exploitation + exploration with
exploitation as claimed, but exploration equal to
`explorationFactor × sqrt((ln(Np)/ln(2.71828)) / N)` — the logarithm taken
to base 2.71828 rather than the exact base e; since `2.71828 < e`, this
strictly exceeds the claimed exact-natural-log value whenever `Np ≥ 2`. -/
theorem ucb_formula (np w n : ℕ) (opp : Bool) (h1 : 1 ≤ np) (h2 : 1 ≤ n) :
    (ucb (some np) w n opp =
      (if opp then 1 - (w : ℝ) / (n : ℝ) else (w : ℝ) / (n : ℝ)) +
        explore_faction *
          Real.sqrt ((Real.log np / Real.log 2.71828) / (n : ℝ))) ∧
    (2 ≤ np →
      (if opp then 1 - (w : ℝ) / (n : ℝ) else (w : ℝ) / (n : ℝ)) +
          explore_faction * Real.sqrt (Real.log np / (n : ℝ))
        < ucb (some np) w n opp) := by
  constructor
  · simp only [ucb]
  · intro hnp
    have hn0 : (0 : ℝ) < (n : ℝ) := by exact_mod_cast h2
    have hnp1 : (1 : ℝ) < (np : ℝ) := by exact_mod_cast hnp
    have hlognp : 0 < Real.log np := Real.log_pos hnp1
    have hb0 : (0 : ℝ) < Real.log 2.71828 := Real.log_pos (by norm_num)
    have hb1 : Real.log 2.71828 < 1 := by
      rw [Real.log_lt_iff_lt_exp (by norm_num)]
      calc (2.71828 : ℝ) < 2.7182818283 := by norm_num
        _ < Real.exp 1 := Real.exp_one_gt_d9
    have hstep : Real.log np < Real.log np / Real.log 2.71828 := by
      rw [lt_div_iff hb0]
      exact mul_lt_of_lt_one_right hlognp hb1
    have hdivstep : Real.log np / (n : ℝ)
        < (Real.log np / Real.log 2.71828) / (n : ℝ) :=
      (div_lt_div_right hn0).mpr hstep
    have hsq : Real.sqrt (Real.log np / (n : ℝ))
        < Real.sqrt ((Real.log np / Real.log 2.71828) / (n : ℝ)) :=
      Real.sqrt_lt_sqrt (div_nonneg hlognp.le hn0.le) hdivstep
    simp only [ucb, explore_faction]
    have : (2 : ℝ) * Real.sqrt (Real.log np / (n : ℝ))
        < 2 * Real.sqrt ((Real.log np / Real.log 2.71828) / (n : ℝ)) :=
      mul_lt_mul_of_pos_left hsq (by norm_num)
    linarith

/-- Witness for the amended C3 theorem, at the spec's own numeric check
point (parent visits 4, node visits 1, wins 1, non-opponent). -/
theorem ucb_formula_witness :
    1 ≤ 4 ∧ 1 ≤ 1 ∧
    ((ucb (some 4) 1 1 false =
      (if false then 1 - (1 : ℝ) / (1 : ℝ) else (1 : ℝ) / (1 : ℝ)) +
        explore_faction *
          Real.sqrt ((Real.log 4 / Real.log 2.71828) / (1 : ℝ))) ∧
    (2 ≤ 4 →
      (if false then 1 - (1 : ℝ) / (1 : ℝ) else (1 : ℝ) / (1 : ℝ)) +
          explore_faction * Real.sqrt (Real.log 4 / (1 : ℝ))
        < ucb (some 4) 1 1 false)) := by
  refine ⟨by norm_num, le_rfl, ?_⟩
  have h := ucb_formula 4 1 1 false (by norm_num) le_rfl
  constructor
  · have h1 := h.1
    norm_num at h1 ⊢
    convert h1 using 3 <;> norm_num
  · intro h2
    have h3 := h.2 (by norm_num)
    norm_num at h3 ⊢
    convert h3 using 3 <;> norm_num

/-- The ActionSelector replacement rule exactly as the specification words
it (spec section 4.6): a candidate replaces the current best only when its
win rate is strictly greater than the best-so-far AND its visit count is
strictly greater than the best-so-far's; a candidate failing either strict
comparison leaves the whole scan state unchanged.  This definition follows
the spec's words and is compared against the embedding of the source. -/
def spec_best_scan {α : Type} :
    List (α × MCTSNode α) → ℚ → ℤ → Option α → Option α
  | [], _, _, best => best
  | (a, c) :: rest, bestRate, bestVisits, best =>
      if (c.wins : ℚ) / (c.visits : ℚ) > bestRate ∧ (c.visits : ℤ) > bestVisits then
        spec_best_scan rest ((c.wins : ℚ) / (c.visits : ℚ)) ((c.visits : ℤ)) (some a)
      else spec_best_scan rest bestRate bestVisits best

theorem get_best_action_aux_eq_spec {α : Type} :
    ∀ (l : List (α × MCTSNode α)) (val : ℚ) (visit : ℤ) (chosen : Option α),
      get_best_action_aux l val visit chosen = spec_best_scan l val visit chosen := by
  intro l
  induction l with
  | nil => intro val visit chosen; rfl
  | cons p rest ih =>
      intro val visit chosen
      obtain ⟨a, c⟩ := p
      by_cases h1 : (c.wins : ℚ) / (c.visits : ℚ) > val
      · by_cases h2 : (c.visits : ℤ) > visit
        · simp [get_best_action_aux, spec_best_scan, h1, h2, ih]
        · simp [get_best_action_aux, spec_best_scan, h1, h2, ih]
      · have h3 : ¬ ((c.wins : ℚ) / (c.visits : ℚ) > val ∧ (c.visits : ℤ) > visit) :=
          fun hh => h1 hh.1
        simp [get_best_action_aux, spec_best_scan, h1, h3, ih]

/-- C1: `get_best_action` scans the children in iteration order and a
candidate replaces the current best only under the both-strictly-greater
rule; the returned action is exactly what the spec's scan produces, and on
the fixture with child A (wins 3, visits 4) scanned before child B (wins 5,
visits 10), the chosen action is A (action 0), not the more-visited B. -/
theorem get_best_action_both_strictly_greater {α : Type} (root : MCTSNode α)
    (hne : root.child_nodes ≠ []) :
    get_best_action root
      = spec_best_scan root.child_nodes (-1000000000) (-1) none ∧
    get_best_action (MCTSNode.node ([] : List ℕ)
        [(0, MCTSNode.node [] [] 3 4), (1, MCTSNode.node [] [] 5 10)] 0 14)
      = some 0 := by
  constructor
  · exact get_best_action_aux_eq_spec root.child_nodes _ _ _
  · norm_num [get_best_action, get_best_action_aux, MCTSNode.child_nodes,
      MCTSNode.wins, MCTSNode.visits]

/-- Witness for C1 at the spec's fixture. -/
theorem get_best_action_rule_witness :
    (MCTSNode.node ([] : List ℕ)
        [(0, MCTSNode.node [] [] 3 4), (1, MCTSNode.node [] [] 5 10)] 0 14).child_nodes
      ≠ [] ∧
    get_best_action (MCTSNode.node ([] : List ℕ)
        [(0, MCTSNode.node [] [] 3 4), (1, MCTSNode.node [] [] 5 10)] 0 14)
      = some 0 :=
  ⟨by simp, (get_best_action_both_strictly_greater (MCTSNode.node ([] : List ℕ)
      [(0, MCTSNode.node [] [] 3 4), (1, MCTSNode.node [] [] 5 10)] 0 14)
      (by simp)).2⟩

/-- C9: when the root has no children, `get_best_action` returns the
explicit absence value `none` (the scan loop body never runs and the
sentinel `chosen_move = None` is returned; no exception is raised). -/
theorem get_best_action_empty {α : Type} (root : MCTSNode α)
    (h : root.child_nodes = []) : get_best_action root = none := by
  simp [get_best_action, h, get_best_action_aux]

/-- Witness for C9 on a childless root. -/
theorem get_best_action_empty_witness :
    (MCTSNode.node ([] : List ℕ) [] 0 0).child_nodes = [] ∧
    get_best_action (MCTSNode.node ([] : List ℕ) [] 0 0) = none :=
  ⟨rfl, get_best_action_empty (MCTSNode.node ([] : List ℕ) [] 0 0) rfl⟩

theorem get_best_action_aux_isSome {α : Type} :
    ∀ (l : List (α × MCTSNode α)) (val : ℚ) (visit : ℤ) (chosen : Option α),
      chosen.isSome → (get_best_action_aux l val visit chosen).isSome := by
  intro l
  induction l with
  | nil =>
      intro val visit chosen h
      simpa [get_best_action_aux] using h
  | cons p rest ih =>
      intro val visit chosen h
      obtain ⟨a, c⟩ := p
      simp only [get_best_action_aux]
      split
      · split
        · exact ih _ _ _ rfl
        · exact ih _ _ _ h
      · exact ih _ _ _ h

/-- C10: with at least one child, each with at least one visit, the scan
accepts the first child (its win rate is nonnegative, hence above the
`-1000000000` sentinel, and its visit count is above the `-1` sentinel), so
`get_best_action` never returns the absence value. -/
theorem get_best_action_isSome {α : Type} (root : MCTSNode α)
    (hne : root.child_nodes ≠ [])
    (hv : ∀ p ∈ root.child_nodes, 1 ≤ p.2.visits) :
    (get_best_action root).isSome := by
  obtain ⟨⟨a, c⟩, rest, hl⟩ := List.exists_cons_of_ne_nil hne
  rw [get_best_action, hl]
  have h1 : (c.wins : ℚ) / (c.visits : ℚ) > (-1000000000 : ℚ) := by
    have h0 : (0 : ℚ) ≤ (c.wins : ℚ) / (c.visits : ℚ) :=
      div_nonneg (by positivity) (by positivity)
    linarith
  have h2 : (c.visits : ℤ) > (-1 : ℤ) := by omega
  simp only [get_best_action_aux, if_pos h1, if_pos h2]
  exact get_best_action_aux_isSome _ _ _ _ rfl

/-- Witness for C10 at the two-child fixture. -/
theorem get_best_action_isSome_witness :
    ((MCTSNode.node ([] : List ℕ)
        [(0, MCTSNode.node [] [] 3 4), (1, MCTSNode.node [] [] 5 10)] 0 14).child_nodes
      ≠ [] ∧
    (∀ p ∈ (MCTSNode.node ([] : List ℕ)
        [(0, MCTSNode.node [] [] 3 4), (1, MCTSNode.node [] [] 5 10)] 0 14).child_nodes,
      1 ≤ p.2.visits)) ∧
    (get_best_action (MCTSNode.node ([] : List ℕ)
        [(0, MCTSNode.node [] [] 3 4), (1, MCTSNode.node [] [] 5 10)] 0 14)).isSome :=
  ⟨⟨by simp, by
      intro p hp
      simp only [MCTSNode.child_nodes_mk, List.mem_cons, List.mem_singleton] at hp
      rcases hp with rfl | hp
      · simp [MCTSNode.visits]
      · rcases hp with rfl | hp
        · simp [MCTSNode.visits]
        · simp at hp⟩,
    get_best_action_isSome (MCTSNode.node ([] : List ℕ)
      [(0, MCTSNode.node [] [] 3 4), (1, MCTSNode.node [] [] 5 10)] 0 14)
      (by simp) (by
      intro p hp
      simp only [MCTSNode.child_nodes_mk, List.mem_cons, List.mem_singleton] at hp
      rcases hp with rfl | hp
      · simp [MCTSNode.visits]
      · rcases hp with rfl | hp
        · simp [MCTSNode.visits]
        · simp at hp)⟩

/-- C4: the loop of `think` runs exactly its iteration budget (the code's
`num_nodes = 1000`) and after it the root's visit counter equals the
budget: every iteration's backpropagation walks the whole selected path up
to and including the root, adding one visit there. -/
theorem think_root_visits {σ α : Type} [DecidableEq α] [Inhabited α]
    (board : Board σ α) (s : σ) (rand : ℕ → ℕ → ℕ) (fuel : ℕ)
    (hg : lawfulBoard board) :
    (∀ budget, ∃ r, mcts_loop board s (board.current_player s) rand fuel budget
        = some r ∧ r.visits = budget) ∧
    num_nodes = 1000 := by
  refine ⟨?_, rfl⟩
  intro budget
  obtain ⟨r, hr, -, hv⟩ :=
    mcts_loop_spec board hg s (board.current_player s) rand fuel budget
  exact ⟨r, hr, hv⟩

/-- Witness for C4 on the concrete fixture game. -/
theorem think_root_visits_witness :
    lawfulBoard heurGame ∧
    ((∀ budget, ∃ r, mcts_loop heurGame TState.s0
        (heurGame.current_player TState.s0) (fun _ _ => 0) 5 budget = some r ∧
        r.visits = budget) ∧
      num_nodes = 1000) :=
  ⟨lawful_heurGame,
    think_root_visits heurGame TState.s0 (fun _ _ => 0) 5 lawful_heurGame⟩

/-- C5: after any number of completed iterations of the think loop, every
non-root node (each node strictly below the root) satisfies
`wins ≤ visits`; both counters start at zero at node creation, and one
backpropagation step at a non-root node adds exactly 1 to `visits` and the
win indicator (0 or 1) to `wins`. -/
theorem nonroot_wins_le_visits {σ α : Type} [DecidableEq α] [Inhabited α]
    (board : Board σ α) (s : σ) (rand : ℕ → ℕ → ℕ) (fuel : ℕ)
    (hg : lawfulBoard board) :
    (∀ k, ∃ r, mcts_loop board s (board.current_player s) rand fuel k = some r ∧
      ∀ p ∈ r.child_nodes,
        AllNodesS board (fun _ n => n.wins ≤ n.visits)
          (board.next_state s p.1) p.2) ∧
    (∀ l : List α, (MCTSNode.create l).wins = 0 ∧ (MCTSNode.create l).visits = 0) ∧
    (∀ (u : List α) (c : List (α × MCTSNode α)) (w v : ℕ) (won : Bool),
      backpropagate won [] (MCTSNode.node u c w v) false
        = MCTSNode.node u c (w + (if won then 1 else 0)) (v + 1)) := by
  refine ⟨?_, fun l => ⟨rfl, rfl⟩, fun u c w v won => rfl⟩
  intro k
  obtain ⟨r, hr, hwf, -⟩ :=
    mcts_loop_spec board hg s (board.current_player s) rand fuel k
  refine ⟨r, hr, ?_⟩
  intro p hp
  exact WF_implies_AllNodesS (fun st n h => h.wins_le_visits) (sizeOf p.2) p.2
    le_rfl _ (hwf.child hp).2

/-- Witness for C5 on the concrete fixture game. -/
theorem nonroot_wins_le_visits_witness :
    lawfulBoard heurGame ∧
    ((∀ k, ∃ r, mcts_loop heurGame TState.s0
        (heurGame.current_player TState.s0) (fun _ _ => 0) 5 k = some r ∧
        ∀ p ∈ r.child_nodes,
          AllNodesS heurGame (fun _ n => n.wins ≤ n.visits)
            (heurGame.next_state TState.s0 p.1) p.2) ∧
      (∀ l : List ℕ, (MCTSNode.create l).wins = 0 ∧
        (MCTSNode.create l).visits = 0) ∧
      (∀ (u : List ℕ) (c : List (ℕ × MCTSNode ℕ)) (w v : ℕ) (won : Bool),
        backpropagate won [] (MCTSNode.node u c w v) false
          = MCTSNode.node u c (w + (if won then 1 else 0)) (v + 1))) :=
  ⟨lawful_heurGame,
    nonroot_wins_le_visits heurGame TState.s0 (fun _ _ => 0) 5 lawful_heurGame⟩

/-- C6: after any number of completed iterations, at every node of the tree
the untried actions and the child keys partition (disjointly, with sizes
adding up) the legal-action list captured at the node's creation; and a
non-terminal `expand_leaf` call moves exactly the front untried action into
the child dictionary. -/
theorem untried_children_partition {σ α : Type} [DecidableEq α] [Inhabited α]
    (board : Board σ α) (s : σ) (rand : ℕ → ℕ → ℕ) (fuel : ℕ)
    (hg : lawfulBoard board) :
    (∀ k, ∃ r, mcts_loop board s (board.current_player s) rand fuel k = some r ∧
      AllNodesS board (fun st n =>
        n.untried_actions.length + n.child_nodes.length
            = (board.legal_actions st).length ∧
        (∀ x, (x ∈ n.untried_actions ∨ x ∈ n.child_nodes.map Prod.fst)
            ↔ x ∈ board.legal_actions st) ∧
        (∀ x, ¬ (x ∈ n.untried_actions ∧ x ∈ n.child_nodes.map Prod.fst))) s r) ∧
    (∀ (n : MCTSNode α) (st : σ) (m : α) (rest : List α),
      board.is_ended st = false → n.untried_actions = m :: rest →
      m ∉ n.child_nodes.map Prod.fst →
      expand_leaf board n st = some (MCTSNode.node rest
          (n.child_nodes ++ [(m, MCTSNode.create
            (board.legal_actions (board.next_state st m)))]) n.wins n.visits,
        board.next_state st m, some m)) := by
  constructor
  · intro k
    obtain ⟨r, hr, hwf, -⟩ :=
      mcts_loop_spec board hg s (board.current_player s) rand fuel k
    refine ⟨r, hr, ?_⟩
    refine WF_implies_AllNodesS ?_ (sizeOf r) r le_rfl s hwf
    intro st n h
    obtain ⟨u, c, w, v⟩ := n
    simp only [WF] at h
    obtain ⟨hpart, -, -, -⟩ := h
    have hnd : (c.map Prod.fst ++ u).Nodup := hpart ▸ hg.2 st
    refine ⟨?_, ?_, ?_⟩
    · have hlen := congrArg List.length hpart
      simp only [List.length_append, List.length_map] at hlen
      simp only [MCTSNode.untried_actions_mk, MCTSNode.child_nodes_mk]
      omega
    · intro x
      simp only [MCTSNode.untried_actions_mk, MCTSNode.child_nodes_mk]
      rw [← hpart, List.mem_append]
      tauto
    · intro x hx
      rw [List.nodup_append] at hnd
      exact hnd.2.2 hx.2 hx.1
  · intro n st m rest hend hu hnot
    obtain ⟨u, c, w, v⟩ := n
    simp only [MCTSNode.untried_actions_mk] at hu
    subst hu
    simp only [MCTSNode.child_nodes_mk] at hnot
    simp only [expand_leaf, hend, MCTSNode.untried_actions_mk,
      MCTSNode.child_nodes_mk, MCTSNode.wins_mk, MCTSNode.visits_mk,
      Bool.false_eq_true, if_false]
    rw [dictInsert_of_not_mem _ _ _ hnot]

/-- Witness for C6 on the concrete fixture game. -/
theorem untried_children_partition_witness :
    lawfulBoard heurGame ∧
    ((∀ k, ∃ r, mcts_loop heurGame TState.s0
        (heurGame.current_player TState.s0) (fun _ _ => 0) 5 k = some r ∧
        AllNodesS heurGame (fun st n =>
          n.untried_actions.length + n.child_nodes.length
              = (heurGame.legal_actions st).length ∧
          (∀ x, (x ∈ n.untried_actions ∨ x ∈ n.child_nodes.map Prod.fst)
              ↔ x ∈ heurGame.legal_actions st) ∧
          (∀ x, ¬ (x ∈ n.untried_actions ∧ x ∈ n.child_nodes.map Prod.fst)))
          TState.s0 r) ∧
      (∀ (n : MCTSNode ℕ) (st : TState) (m : ℕ) (rest : List ℕ),
        heurGame.is_ended st = false → n.untried_actions = m :: rest →
        m ∉ n.child_nodes.map Prod.fst →
        expand_leaf heurGame n st = some (MCTSNode.node rest
            (n.child_nodes ++ [(m, MCTSNode.create
              (heurGame.legal_actions (heurGame.next_state st m)))])
            n.wins n.visits,
          heurGame.next_state st m, some m))) :=
  ⟨lawful_heurGame,
    untried_children_partition heurGame TState.s0 (fun _ _ => 0) 5 lawful_heurGame⟩

/-- C7: `expand_leaf` on a terminal state returns exactly its input with no
mutation; otherwise it pops the front element of the untried-action list
(FIFO), computes the successor state via the game model, builds a child
whose untried list is the successor's legal-action list and whose counters
are zero, registers it under the popped action leaving every other key
untouched, and returns the child with the successor state. -/
theorem expand_leaf_spec {σ α : Type} [DecidableEq α] (board : Board σ α) :
    (∀ (n : MCTSNode α) (st : σ), board.is_ended st = true →
        expand_leaf board n st = some (n, st, none)) ∧
    (∀ (n : MCTSNode α) (st : σ) (m : α) (rest : List α),
        board.is_ended st = false → n.untried_actions = m :: rest →
        expand_leaf board n st = some (MCTSNode.node rest
            (dictInsert n.child_nodes m
              (MCTSNode.create (board.legal_actions (board.next_state st m))))
            n.wins n.visits,
          board.next_state st m, some m) ∧
        dictLookup (dictInsert n.child_nodes m
            (MCTSNode.create (board.legal_actions (board.next_state st m)))) m
          = some (MCTSNode.create (board.legal_actions (board.next_state st m))) ∧
        (∀ b, b ≠ m →
          dictLookup (dictInsert n.child_nodes m
            (MCTSNode.create (board.legal_actions (board.next_state st m)))) b
            = dictLookup n.child_nodes b)) ∧
    (∀ l : List α, (MCTSNode.create l).untried_actions = l ∧
        (MCTSNode.create l).child_nodes = [] ∧
        (MCTSNode.create l).wins = 0 ∧ (MCTSNode.create l).visits = 0) := by
  refine ⟨?_, ?_, fun l => ⟨rfl, rfl, rfl, rfl⟩⟩
  · intro n st h
    simp [expand_leaf, h]
  · intro n st m rest hend hu
    obtain ⟨u, c, w, v⟩ := n
    simp only [MCTSNode.untried_actions_mk] at hu
    subst hu
    refine ⟨?_, dictLookup_dictInsert_self _ _ _,
      fun b hb => dictLookup_dictInsert_ne _ _ _ _ hb⟩
    simp [expand_leaf, hend]

/-- Witness for C7: a terminal no-op at `s2b` and a pop-the-front expansion
at `s0`. -/
theorem expand_leaf_spec_witness :
    (heurGame.is_ended TState.s2b = true ∧
      expand_leaf heurGame (MCTSNode.node [] [] 3 4) TState.s2b
        = some (MCTSNode.node [] [] 3 4, TState.s2b, none)) ∧
    (heurGame.is_ended TState.s0 = false ∧
      (MCTSNode.node [0] ([] : List (ℕ × MCTSNode ℕ)) 0 0).untried_actions
        = 0 :: [] ∧
      expand_leaf heurGame (MCTSNode.node [0] [] 0 0) TState.s0
        = some (MCTSNode.node []
            (dictInsert ([] : List (ℕ × MCTSNode ℕ)) 0
              (MCTSNode.create
                (heurGame.legal_actions (heurGame.next_state TState.s0 0))))
            0 0,
          heurGame.next_state TState.s0 0, some 0)) :=
  ⟨⟨rfl, (expand_leaf_spec heurGame).1 (MCTSNode.node [] [] 3 4) TState.s2b rfl⟩,
   ⟨rfl, rfl,
    ((expand_leaf_spec heurGame).2.1 (MCTSNode.node [0] [] 0 0) TState.s0 0 []
      rfl rfl).1⟩⟩

/-- C8: after any number of completed iterations (hence at the moment any
later selection pass or the final `get_best_action` reads the tree), every
child node anywhere in the tree has `visits ≥ 1`, and every node that has
children — the only nodes whose visit count feeds the logarithm in `ucb` —
has `visits ≥ 1`: each freshly created child is backpropagated in the same
iteration that created it, before any later read.  So no `wins/visits`
division by zero and no logarithm of zero occurs. -/
theorem no_division_by_zero {σ α : Type} [DecidableEq α] [Inhabited α]
    (board : Board σ α) (s : σ) (rand : ℕ → ℕ → ℕ) (fuel : ℕ)
    (hg : lawfulBoard board) :
    ∀ k, ∃ r, mcts_loop board s (board.current_player s) rand fuel k = some r ∧
      AllNodesS board (fun _ n =>
        (∀ p ∈ n.child_nodes, 1 ≤ p.2.visits) ∧
        (n.child_nodes ≠ [] → 1 ≤ n.visits)) s r := by
  intro k
  obtain ⟨r, hr, hwf, -⟩ :=
    mcts_loop_spec board hg s (board.current_player s) rand fuel k
  refine ⟨r, hr, ?_⟩
  refine WF_implies_AllNodesS ?_ (sizeOf r) r le_rfl s hwf
  intro st n h
  obtain ⟨u, c, w, v⟩ := n
  simp only [WF] at h
  obtain ⟨-, -, hcl, hch⟩ := h
  constructor
  · intro p hp
    exact (hch p hp).1
  · intro hne
    have hpos : 0 < c.length := List.length_pos.mpr hne
    simp only [MCTSNode.visits_mk]
    omega

/-- Witness for C8 on the concrete fixture game. -/
theorem no_division_by_zero_witness :
    lawfulBoard heurGame ∧
    (∀ k, ∃ r, mcts_loop heurGame TState.s0
        (heurGame.current_player TState.s0) (fun _ _ => 0) 5 k = some r ∧
      AllNodesS heurGame (fun _ n =>
        (∀ p ∈ n.child_nodes, 1 ≤ p.2.visits) ∧
        (n.child_nodes ≠ [] → 1 ≤ n.visits)) TState.s0 r) :=
  ⟨lawful_heurGame,
    no_division_by_zero heurGame TState.s0 (fun _ _ => 0) 5 lawful_heurGame⟩
